import Mathlib

/-!
Verification of the dlqpiler synthesis core (`utils.py`, `qunits.py`, `ast.py`,
`parser.py`) against its specification.

Registers hold natural numbers in binary with the least-significant bit first.
Quantum gates are modelled by their action on computational basis states:
the Draper constant adder becomes addition modulo `2^n` on the register value,
CNOT becomes xor on the target bit, and a multi-controlled X flips the target
exactly when every (positive-polarity) control bit is one.  Python runtime
failures (`TypeError`, `AttributeError`, `ValueError`, `NameError`) are
modelled with an `Except` error monad.
-/

-- ------------------------------------------------------------------
-- utils.py
-- ------------------------------------------------------------------

/-- utils.natural_to_binary: reduce `x` modulo `2**n`, then bit `i` is
`bool((x // 2**i) % 2)`; least-significant bit first, exactly `n` bits. -/
def natural_to_binary (x : Int) (n : Nat) : List Bool :=
  let x' := x % (2 : Int) ^ n
  (List.range n).map (fun i => decide ((x' / (2 : Int) ^ i) % 2 = 1))

/-- utils.binary_to_natural: `sum(2**i * int(x[i]) for i in range(len(x)))`,
least-significant bit first. -/
def binary_to_natural (x : List Bool) : Int :=
  ((List.range x.length).map
    (fun i => (2 : Int) ^ i * (if x.getD i false then 1 else 0))).sum

lemma binary_to_natural_nil : binary_to_natural [] = 0 := rfl

lemma list_sum_map_mul_left {α : Type} (l : List α) (c : Int) (f : α → Int) :
    (l.map fun a => c * f a).sum = c * (l.map f).sum := by
  induction l with
  | nil => simp
  | cons a t ih => simp [ih, mul_add]

lemma binary_to_natural_cons (b : Bool) (bs : List Bool) :
    binary_to_natural (b :: bs) = (if b then 1 else 0) + 2 * binary_to_natural bs := by
  unfold binary_to_natural
  rw [List.length_cons, List.range_succ_eq_map]
  rw [List.map_cons, List.sum_cons, List.map_map]
  congr 1
  · simp
  · rw [show ((fun i => (2 : Int) ^ i * (if (b :: bs).getD i false then 1 else 0)) ∘ Nat.succ)
        = (fun i => 2 * ((2 : Int) ^ i * (if bs.getD i false then 1 else 0))) from ?_]
    · rw [list_sum_map_mul_left]
    · funext i
      simp [pow_succ]
      ring_nf

/-- Binary expansion of a natural number below `2^n` recovered by the
weighted bit sum, stated over `Nat`. -/
lemma nat_bits_sum (n : Nat) : ∀ M : Nat, M < 2 ^ n →
    ((List.range n).map (fun i => 2 ^ i * (M / 2 ^ i % 2))).sum = M := by
  induction n with
  | zero => intro M hM; interval_cases M; simp
  | succ n ih =>
    intro M hM
    rw [List.range_succ_eq_map, List.map_cons, List.sum_cons, List.map_map]
    have hcomp : ((fun i => 2 ^ i * (M / 2 ^ i % 2)) ∘ Nat.succ)
        = (fun i => 2 * (2 ^ i * ((M / 2) / 2 ^ i % 2))) := by
      funext i
      simp only [Function.comp_apply, pow_succ]
      rw [Nat.div_div_eq_div_mul]
      ring_nf
    rw [hcomp]
    have hmul : ((List.range n).map (fun i => 2 * (2 ^ i * ((M / 2) / 2 ^ i % 2)))).sum
        = 2 * ((List.range n).map (fun i => 2 ^ i * ((M / 2) / 2 ^ i % 2))).sum := by
      induction (List.range n) with
      | nil => simp
      | cons a t iht => simp [iht, Nat.mul_add]
    rw [hmul, ih (M / 2) (by omega)]
    simp only [pow_zero, Nat.pow_zero, one_mul, Nat.div_one]
    omega

lemma binary_to_natural_range_map (n : Nat) (f : Nat → Bool) :
    binary_to_natural ((List.range n).map f)
      = ((List.range n).map (fun i => (2 : Int) ^ i * (if f i then 1 else 0))).sum := by
  unfold binary_to_natural
  rw [List.length_map, List.length_range]
  congr 1
  refine List.map_congr_left ?_
  intro i hi
  have hi' : i < n := List.mem_range.mp hi
  have hget : ((List.range n).map f).getD i false = f i := by
    rw [List.getD_eq_getElem _ _ (by simpa using hi')]
    simp
  rw [hget]

lemma list_sum_natCast {α : Type} (l : List α) (g : α → Nat) :
    (l.map (fun a => ((g a : Nat) : Int))).sum = (((l.map g).sum : Nat) : Int) := by
  induction l with
  | nil => simp
  | cons a t ih => simp [ih]

/-- C8: for all integers `x ≥ 0` and `n ≥ 1`,
`binary_to_natural (natural_to_binary x n) = x mod 2^n`, where
`natural_to_binary` returns exactly `n` bits, least-significant bit first. -/
theorem c8_round_trip (x : Int) (n : Nat) (hx : 0 ≤ x) (hn : 1 ≤ n) :
    binary_to_natural (natural_to_binary x n) = x % (2 : Int) ^ n := by
  have hpow : (0 : Int) < 2 ^ n := by positivity
  have h0 : 0 ≤ x % (2 : Int) ^ n := Int.emod_nonneg x (by positivity)
  have h1 : x % (2 : Int) ^ n < 2 ^ n := Int.emod_lt_of_pos x hpow
  obtain ⟨M, hM⟩ : ∃ M : Nat, (M : Int) = x % (2 : Int) ^ n :=
    ⟨(x % (2 : Int) ^ n).toNat, Int.toNat_of_nonneg h0⟩
  have hMlt : M < 2 ^ n := by
    rw [← hM] at h1
    exact_mod_cast h1
  have hdef : natural_to_binary x n
      = (List.range n).map fun i => decide (((x % (2 : Int) ^ n) / (2 : Int) ^ i) % 2 = 1) := rfl
  rw [hdef, binary_to_natural_range_map]
  simp only [← hM]
  have hterm : ∀ i ∈ List.range n,
      (2 : Int) ^ i * (if (((M : Int) / (2 : Int) ^ i) % 2 = 1) then (1 : Int) else 0)
        = ((2 ^ i * (M / 2 ^ i % 2) : Nat) : Int) := by
    intro i _
    have hdiv : ((M : Int) / (2 : Int) ^ i) % 2 = ((M / 2 ^ i % 2 : Nat) : Int) := by
      norm_cast
    rw [hdiv]
    rcases Nat.mod_two_eq_zero_or_one (M / 2 ^ i) with h | h <;> simp [h]
  simp only [decide_eq_true_eq]
  rw [List.map_congr_left hterm, list_sum_natCast, nat_bits_sum n M hMlt]

/-- Witness for C8 at `x = 13`, `n = 3`. -/
theorem c8_round_trip_witness :
    (0 : Int) ≤ 13 ∧ (1 : Nat) ≤ 3
      ∧ binary_to_natural (natural_to_binary 13 3) = 13 % (2 : Int) ^ 3 :=
  ⟨by norm_num, by norm_num, c8_round_trip 13 3 (by norm_num) (by norm_num)⟩

-- ------------------------------------------------------------------
-- qunits.py: arithmetic circuits on basis states
-- ------------------------------------------------------------------

/-- qunits.register_by_constant_addition (simplified Draper adder) acting on
the value of an `n`-qubit register: it adds the constant `c` modulo `2^n`. -/
def register_by_constant_addition (n : Nat) (c : Int) (y : Nat) : Nat :=
  (((y : Int) + c) % (2 : Int) ^ n).toNat

/-- qunits.multiproduct helper: `factors_indexes` holds the index of each
factor repeated `exponents[i]` times
(`for i in range(len(exponents)): factors_indexes += [i]*exponents[i]`). -/
def factors_indexes (exponents : List Nat) : List Nat :=
  (List.range exponents.length).flatMap (fun i => List.replicate (exponents.getD i 0) i)

/-- itertools.product over a list of index ranges, first coordinate slowest. -/
def cartesian_product : List (List Nat) → List (List Nat)
  | [] => [[]]
  | l :: ls => l.flatMap (fun x => (cartesian_product ls).map (fun t => x :: t))

/-- The multi-controlled gate condition in qunits.multiproduct: the control
qubits are `bases[factors_indexes[i]][t[i]]` for each position `i` (collected
as a set, which does not change the all-ones test), and the controlled
constant adder fires exactly when all of them are one. -/
def ctrl_all_one (bases : List (List Bool)) (fi t : List Nat) : Bool :=
  ((fi.zip t).map (fun p => (bases.getD p.1 []).getD p.2 false)).all (fun b => b)

/-- qunits.multiproduct acting on the value `y` of the `w`-qubit result
register: for every tuple `t` in the Cartesian product of the bit-index
ranges of the (flattened) factors, append a controlled
`register_by_constant_addition` of `constant * 2^(sum t)` controlled on the
selected base bits.  The base registers are only used as controls and are
left unchanged. -/
def multiproduct (w : Nat) (bases : List (List Bool)) (exponents : List Nat)
    (constant : Int) (y : Nat) : Nat :=
  let fi := factors_indexes exponents
  let ts := cartesian_product (fi.map (fun f => List.range (bases.getD f []).length))
  ts.foldl (fun acc t =>
    if ctrl_all_one bases fi t then
      register_by_constant_addition w (constant * (2 : Int) ^ t.sum) acc
    else acc) y

/-- qunits.multiproduct_dg: the same instruction list is built with the
negated constants and then appended in reverse order. -/
def multiproduct_dg (w : Nat) (bases : List (List Bool)) (exponents : List Nat)
    (constant : Int) (y : Nat) : Nat :=
  let fi := factors_indexes exponents
  let ts := cartesian_product (fi.map (fun f => List.range (bases.getD f []).length))
  ts.reverse.foldl (fun acc t =>
    if ctrl_all_one bases fi t then
      register_by_constant_addition w (-(constant * (2 : Int) ^ t.sum)) acc
    else acc) y

lemma two_pow_cast (n : Nat) : ((2 ^ n : Nat) : Int) = (2 : Int) ^ n := by
  push_cast
  ring

lemma register_by_constant_addition_lt (n : Nat) (c : Int) (y : Nat) :
    register_by_constant_addition n c y < 2 ^ n := by
  unfold register_by_constant_addition
  have h1 : ((y : Int) + c) % (2 : Int) ^ n < (2 : Int) ^ n :=
    Int.emod_lt_of_pos _ (by positivity)
  have h0 : 0 ≤ ((y : Int) + c) % (2 : Int) ^ n := Int.emod_nonneg _ (by positivity)
  rw [← two_pow_cast] at h1 h0 ⊢
  omega

/-- A fold of controlled constant additions over a `w`-qubit register adds the
sum of the enabled constants, modulo `2^w`. -/
lemma foldl_controlled_adds (w : Nat) (f : List Nat → Int) (cond : List Nat → Bool)
    (ts : List (List Nat)) : ∀ (y : Nat), y < 2 ^ w →
    ts.foldl (fun acc t =>
        if cond t then register_by_constant_addition w (f t) acc else acc) y
      = (((y : Int) + (ts.map (fun t => if cond t then f t else 0)).sum)
          % (2 : Int) ^ w).toNat := by
  induction ts with
  | nil =>
    intro y hy
    simp only [List.foldl_nil, List.map_nil, List.sum_nil, add_zero]
    rw [Int.emod_eq_of_lt (by positivity) (by rw [← two_pow_cast]; exact_mod_cast hy)]
    simp
  | cons t ts ih =>
    intro y hy
    rw [List.foldl_cons, List.map_cons, List.sum_cons]
    by_cases hc : cond t
    · rw [if_pos hc, if_pos hc, ih _ (register_by_constant_addition_lt w (f t) y)]
      unfold register_by_constant_addition
      rw [Int.toNat_of_nonneg (Int.emod_nonneg _ (by positivity))]
      rw [Int.emod_add_emod, add_assoc]
    · rw [if_neg hc, if_neg hc, ih _ hy, zero_add]

lemma list_sum_map_mul_right {α : Type} (l : List α) (c : Int) (f : α → Int) :
    (l.map fun a => f a * c).sum = (l.map f).sum * c := by
  induction l with
  | nil => simp
  | cons a t ih => simp [ih, add_mul]

lemma list_sum_map_neg {α : Type} (l : List α) (f : α → Int) :
    (l.map fun a => -f a).sum = -(l.map f).sum := by
  induction l with
  | nil => simp
  | cons a t ih => simp [ih]; ring

lemma binary_to_natural_eq_sum_pows (B : List Bool) :
    binary_to_natural B
      = ((List.range B.length).map
          (fun j => if B.getD j false then (2 : Int) ^ j else 0)).sum := by
  unfold binary_to_natural
  congr 1
  refine List.map_congr_left ?_
  intro j _
  by_cases h : B.getD j false <;> simp [h]

lemma mem_cartesian_product_length : ∀ {L : List (List Nat)} {t : List Nat},
    t ∈ cartesian_product L → t.length = L.length := by
  intro L
  induction L with
  | nil =>
    intro t h
    simp only [cartesian_product, List.mem_singleton] at h
    simp [h]
  | cons l ls ih =>
    intro t h
    simp only [cartesian_product, List.mem_flatMap, List.mem_map] at h
    obtain ⟨x, _, t', ht', rfl⟩ := h
    simp [ih ht']

/-- Per-tuple bridge: the enabled power of two for one tuple equals the product
over positions of the selected (bit-gated) powers of two. -/
lemma ctrl_prod_eq : ∀ (regs : List (List Bool)) (t : List Nat),
    t.length = regs.length →
    (if ((regs.zip t).map (fun p => p.1.getD p.2 false)).all (fun b => b)
        then (2 : Int) ^ t.sum else 0)
      = ((regs.zip t).map
          (fun p => if p.1.getD p.2 false then (2 : Int) ^ p.2 else 0)).prod := by
  intro regs
  induction regs with
  | nil =>
    intro t ht
    rw [List.length_nil] at ht
    rw [List.eq_nil_of_length_eq_zero ht]
    simp
  | cons B regs ih =>
    intro t ht
    cases t with
    | nil => simp at ht
    | cons j t' =>
      rw [List.zip_cons_cons, List.map_cons, List.map_cons, List.all_cons, List.prod_cons]
      by_cases hb : B.getD j false
      · have ht2 : t'.length = regs.length := by simpa using ht
        rw [← ih t' ht2, hb]
        by_cases hrest : ((regs.zip t').map (fun p => p.1.getD p.2 false)).all (fun b => b)
        · rw [hrest]
          simp [List.sum_cons, pow_add]
        · rw [Bool.not_eq_true] at hrest
          rw [hrest]
          simp
      · rw [Bool.not_eq_true] at hb
        rw [hb]
        simp

/-- Distributivity: the sum over all tuples of the per-position products
equals the product over positions of the per-position sums, i.e. the binary
expansion of each factor value. -/
lemma sum_product_interchange : ∀ (regs : List (List Bool)),
    ((cartesian_product (regs.map (fun B => List.range B.length))).map
      (fun t => ((regs.zip t).map
        (fun p => if p.1.getD p.2 false then (2 : Int) ^ p.2 else 0)).prod)).sum
    = (regs.map (fun B => binary_to_natural B)).prod := by
  intro regs
  induction regs with
  | nil => simp [cartesian_product]
  | cons B regs ih =>
    conv_rhs => rw [List.map_cons, List.prod_cons]
    rw [← ih]
    conv_lhs => rw [List.map_cons]
    simp only [cartesian_product]
    have hfm : ∀ {β : Type} (l : List Nat) (f : Nat → List β),
        l.flatMap f = (l.map f).flatten := fun _ _ => rfl
    rw [List.map_flatMap, hfm, List.sum_flatten, List.map_map]
    trans ((List.range B.length).map (fun x => (if B.getD x false then (2 : Int) ^ x else 0) *
        ((cartesian_product (regs.map fun B => List.range B.length)).map
          (fun t => ((regs.zip t).map
            (fun p => if p.1.getD p.2 false then (2 : Int) ^ p.2 else 0)).prod)).sum)).sum
    · refine congrArg List.sum (List.map_congr_left ?_)
      intro x _
      simp only [Function.comp_apply, List.map_map]
      trans ((cartesian_product (regs.map fun B => List.range B.length)).map
          (fun t => (if B.getD x false then (2 : Int) ^ x else 0) *
            ((regs.zip t).map
              (fun p => if p.1.getD p.2 false then (2 : Int) ^ p.2 else 0)).prod)).sum
      · refine congrArg List.sum (List.map_congr_left ?_)
        intro t _
        simp [List.zip_cons_cons]
      · rw [list_sum_map_mul_left]
    · rw [list_sum_map_mul_right, ← binary_to_natural_eq_sum_pows]

lemma factors_indexes_nil : factors_indexes [] = [] := rfl

lemma factors_indexes_cons (e : Nat) (es : List Nat) :
    factors_indexes (e :: es)
      = List.replicate e 0 ++ (factors_indexes es).map (· + 1) := by
  unfold factors_indexes
  rw [List.length_cons, List.range_succ_eq_map, List.flatMap_cons]
  congr 1
  rw [List.flatMap_map]
  rw [show ∀ {β : Type} (l : List Nat) (f : Nat → List β),
        l.flatMap f = (l.map f).flatten from fun _ _ => rfl]
  rw [show ∀ {β : Type} (l : List Nat) (f : Nat → List β),
        l.flatMap f = (l.map f).flatten from fun _ _ => rfl]
  rw [List.map_flatten, List.map_map]
  refine congrArg List.flatten (List.map_congr_left ?_)
  intro i _
  simp [List.map_replicate, List.getD_cons_succ]

lemma prod_map_factors_indexes : ∀ (es : List Nat) (bases : List (List Bool)),
    es.length = bases.length →
    ((factors_indexes es).map (fun f => binary_to_natural (bases.getD f []))).prod
      = ((bases.zip es).map (fun p => binary_to_natural p.1 ^ p.2)).prod := by
  intro es
  induction es with
  | nil =>
    intro bases h
    rw [factors_indexes_nil]
    simp [List.zip_nil_right]
  | cons e es ih =>
    intro bases h
    cases bases with
    | nil => simp at h
    | cons B bs =>
      rw [factors_indexes_cons, List.map_append, List.prod_append, List.map_map,
        List.map_replicate]
      rw [show ((fun f => binary_to_natural ((B :: bs).getD f [])) ∘ (· + 1))
          = (fun f => binary_to_natural (bs.getD f [])) from
        funext fun f => by simp [List.getD_cons_succ]]
      rw [ih bs (by simpa using h)]
      rw [List.zip_cons_cons, List.map_cons, List.prod_cons, List.prod_replicate]
      simp

lemma toNat_emod_two_pow_lt (w : Nat) (a : Int) : (a % (2 : Int) ^ w).toNat < 2 ^ w := by
  have h1 : a % (2 : Int) ^ w < (2 : Int) ^ w := Int.emod_lt_of_pos _ (by positivity)
  rw [← two_pow_cast] at h1 ⊢
  omega

lemma ctrl_all_one_regs (bases : List (List Bool)) (fi t : List Nat) :
    ctrl_all_one bases fi t
      = (((fi.map (fun f => bases.getD f [])).zip t).map
          (fun p => p.1.getD p.2 false)).all (fun b => b) := by
  unfold ctrl_all_one
  rw [List.zip_map_left, List.map_map]
  rfl

/-- Net effect of qunits.multiproduct: the controlled adders add the sum of the
enabled constants modulo `2^w`. -/
lemma multiproduct_net (w : Nat) (bases : List (List Bool)) (exponents : List Nat)
    (constant : Int) (y : Nat) (hy : y < 2 ^ w) :
    multiproduct w bases exponents constant y
      = (((y : Int) + ((cartesian_product ((factors_indexes exponents).map
            (fun f => List.range (bases.getD f []).length))).map
            (fun t => if ctrl_all_one bases (factors_indexes exponents) t
              then constant * (2 : Int) ^ t.sum else 0)).sum) % (2 : Int) ^ w).toNat :=
  foldl_controlled_adds w _ _ _ y hy

/-- Net effect of qunits.multiproduct_dg (same tuples, negated constants,
reversed order). -/
lemma multiproduct_dg_net (w : Nat) (bases : List (List Bool)) (exponents : List Nat)
    (constant : Int) (y : Nat) (hy : y < 2 ^ w) :
    multiproduct_dg w bases exponents constant y
      = (((y : Int) + ((cartesian_product ((factors_indexes exponents).map
            (fun f => List.range (bases.getD f []).length))).reverse.map
            (fun t => if ctrl_all_one bases (factors_indexes exponents) t
              then -(constant * (2 : Int) ^ t.sum) else 0)).sum) % (2 : Int) ^ w).toNat :=
  foldl_controlled_adds w _ _ _ y hy

/-- The total constant added by qunits.multiproduct equals
`constant * prod(value(base_i) ^ exponent_i)`. -/
lemma multiproduct_contrib_sum (bases : List (List Bool)) (exponents : List Nat)
    (constant : Int) (hlen : exponents.length = bases.length) :
    ((cartesian_product ((factors_indexes exponents).map
        (fun f => List.range (bases.getD f []).length))).map
      (fun t => if ctrl_all_one bases (factors_indexes exponents) t
        then constant * (2 : Int) ^ t.sum else 0)).sum
    = constant * ((bases.zip exponents).map
        (fun p => binary_to_natural p.1 ^ p.2)).prod := by
  have hranges : (factors_indexes exponents).map (fun f => List.range (bases.getD f []).length)
      = ((factors_indexes exponents).map (fun f => bases.getD f [])).map
          (fun B => List.range B.length) := by
    rw [List.map_map]
    rfl
  rw [hranges]
  have hpt : ∀ t ∈ cartesian_product (((factors_indexes exponents).map
        (fun f => bases.getD f [])).map (fun B => List.range B.length)),
      (if ctrl_all_one bases (factors_indexes exponents) t
          then constant * (2 : Int) ^ t.sum else 0)
        = constant * ((((factors_indexes exponents).map (fun f => bases.getD f [])).zip t).map
            (fun p => if p.1.getD p.2 false then (2 : Int) ^ p.2 else 0)).prod := by
    intro t ht
    have hlt := mem_cartesian_product_length ht
    rw [List.length_map] at hlt
    rw [ctrl_all_one_regs]
    rw [← ctrl_prod_eq _ t (by simpa using hlt)]
    by_cases hc : ((((factors_indexes exponents).map (fun f => bases.getD f [])).zip t).map
        (fun p => p.1.getD p.2 false)).all (fun b => b)
    · rw [hc]
      simp
    · rw [Bool.not_eq_true] at hc
      rw [hc]
      simp
  rw [List.map_congr_left hpt, list_sum_map_mul_left, sum_product_interchange]
  rw [List.map_map]
  congr 1
  exact prod_map_factors_indexes exponents bases hlen

/-- C3: for base registers holding values `v_i`, non-negative exponents `e_i`,
integer constant `c` and a `w`-qubit result register holding `y < 2^w`,
qunits.multiproduct maps `y` to `(y + c * prod(v_i ^ e_i)) mod 2^w` (the base
registers are only read as controls), and qunits.multiproduct_dg is its exact
inverse. -/
theorem c3_multiproduct (w : Nat) (bases : List (List Bool)) (exponents : List Nat)
    (constant : Int) (y : Nat) (hy : y < 2 ^ w)
    (hlen : exponents.length = bases.length) :
    multiproduct w bases exponents constant y
      = (((y : Int) + constant * ((bases.zip exponents).map
          (fun p => binary_to_natural p.1 ^ p.2)).prod) % (2 : Int) ^ w).toNat
  ∧ multiproduct_dg w bases exponents constant
      (multiproduct w bases exponents constant y) = y := by
  have h1 : multiproduct w bases exponents constant y
      = (((y : Int) + constant * ((bases.zip exponents).map
          (fun p => binary_to_natural p.1 ^ p.2)).prod) % (2 : Int) ^ w).toNat := by
    rw [multiproduct_net w bases exponents constant y hy,
        multiproduct_contrib_sum bases exponents constant hlen]
  refine ⟨h1, ?_⟩
  have hylt : multiproduct w bases exponents constant y < 2 ^ w := by
    rw [h1]
    exact toNat_emod_two_pow_lt w _
  rw [multiproduct_dg_net w bases exponents constant _ hylt]
  rw [List.map_reverse, List.sum_reverse]
  rw [show (fun t => if ctrl_all_one bases (factors_indexes exponents) t
        then -(constant * (2 : Int) ^ t.sum) else 0)
      = (fun t : List Nat => -(if ctrl_all_one bases (factors_indexes exponents) t
        then constant * (2 : Int) ^ t.sum else 0)) from
    funext fun t => by by_cases hc : ctrl_all_one bases (factors_indexes exponents) t <;> simp [hc]]
  rw [list_sum_map_neg, multiproduct_contrib_sum bases exponents constant hlen]
  rw [h1]
  rw [Int.toNat_of_nonneg (Int.emod_nonneg _ (by positivity))]
  rw [Int.emod_add_emod, add_neg_cancel_right]
  rw [Int.emod_eq_of_lt (by positivity) (by rw [← two_pow_cast]; exact_mod_cast hy)]
  simp

/-- Witness for C3: one base register holding 3 (bits `[1,1]`), exponent 2,
constant 2, a 4-qubit result holding 1; the result becomes
`(1 + 2 * 3^2) mod 16 = 3` and the dagger restores 1. -/
theorem c3_multiproduct_witness :
    multiproduct 4 [[true, true]] [2] 2 1
      = (((1 : Int) + 2 * (([([true, true], 2)] : List (List Bool × Nat)).map
          (fun p : List Bool × Nat => binary_to_natural p.1 ^ p.2)).prod) % (2 : Int) ^ 4).toNat
  ∧ multiproduct_dg 4 [[true, true]] [2] 2 (multiproduct 4 [[true, true]] [2] 2 1) = 1 :=
  c3_multiproduct 4 [[true, true]] [2] 2 1 (by norm_num) (by norm_num)

/-- qunits.register_equal_register acting on basis states.  The shorter
operand is padded with the ancillas `aux` (`xleft`/`xright` as in the source,
chosen by `len(left) >= len(right)`).  The first CNOT layer xors `xleft`
into `xright`, the MCX flips `result` exactly when every bit of `xright`
(all positive-polarity controls) is one, and the reversed CNOT layer
restores `xright`.  The returned tuple is the final state of
`(left, right, aux, result)`. -/
def register_equal_register (left right aux : List Bool) (result : Bool) :
    List Bool × List Bool × List Bool × Bool :=
  if right.length ≤ left.length then
    let xleft := left
    let xright := right ++ aux
    let xr1 := List.zipWith (fun l t => xor t l) xleft xright
    let r1 := xor result (xr1.all (fun b => b))
    let xr2 := List.zipWith (fun l t => xor t l) xleft xr1
    (xleft, xr2.take right.length, xr2.drop right.length, r1)
  else
    let xleft := left ++ aux
    let xright := right
    let xr1 := List.zipWith (fun l t => xor t l) xleft xright
    let r1 := xor result (xr1.all (fun b => b))
    let xr2 := List.zipWith (fun l t => xor t l) xleft xr1
    (left, xr2, aux, r1)

/-- C1 (code bug): register_equal_register omits the X layer around the MCX
(the constant variant register_equal_constant does pre-flip the zero bits),
so the MCX fires when the xored register is all ones, i.e. when `vb` is the
bitwise complement of `va` — not when `va = vb`.  At `va = vb = 0` (one qubit
each) the claim requires `r` to flip to 1, but the circuit leaves the state
unchanged; at `va = 0, vb = 1` the claim requires `r` to stay 0, but the
circuit flips it to 1.  Operands and ancillas are restored in both cases. -/
theorem c1_equal_register_bug_eval :
    register_equal_register [false] [false] [] false = ([false], [false], [], false)
  ∧ register_equal_register [false] [true] [] false = ([false], [true], [], true) := by
  constructor <;> rfl

/-- qunits.register_less_than_constant acting on basis states: the register
(`n` qubits, value `va`) widened by `naux` zero ancillas gets
`register_by_constant_addition` of `-constant`, then the top bit of the
UNWIDENED register (`reg[-1]`, bit `n-1` of the subtracted value) is xored
into `result`, and the addition is undone.  Returns the final
(widened register value, result bit). -/
def register_less_than_constant (n naux : Nat) (va : Nat) (constant : Int)
    (result : Bool) : Nat × Bool :=
  let v1 := register_by_constant_addition (n + naux) (-constant) va
  let r1 := xor result (v1.testBit (n - 1))
  let v2 := register_by_constant_addition (n + naux) constant v1
  (v2, r1)

/-- C5 (code bug): the CNOT reads `reg[-1]` — the top bit of the unwidened
register — instead of the widening ancilla that holds the sign of
`va - constant` (the register-vs-register variant does read the ancilla).
For a 1-qubit register holding `va = 0`, constant `2`, one ancilla
(the count LessThan.pre_build always allocates) and `r = 0`:
`(0 - 2) mod 4 = 2` has bit 0 equal to 0, so the circuit leaves `r = 0`
even though `0 < 2`; the register is restored to 0. -/
theorem c5_less_than_constant_bug_eval :
    register_less_than_constant 1 1 0 2 false = (0, false) := by
  decide

-- ------------------------------------------------------------------
-- Python runtime errors
-- ------------------------------------------------------------------

/-- Python runtime failures raised by the synthesis code.  `synth` is the
line-carrying SynthError from ast.py; the others are uncaught interpreter
errors that carry no line-numbered diagnostic. -/
inductive PyErr where
  | valueErr : PyErr
  | typeErr : PyErr
  | attrErr : PyErr
  | nameErr : PyErr
  | synth (line : Int) (description : String) : PyErr
deriving DecidableEq

-- ------------------------------------------------------------------
-- parser.py: constant folding of the logical operators (C9)
-- ------------------------------------------------------------------

/-- parser.p_expression_or, arm where both operands are ints:
`int(bool(p[1] % 2) or bool(p[3] % 2))`. -/
def p_expression_or_fold (a b : Int) : Int :=
  if (a % 2 != 0) || (b % 2 != 0) then 1 else 0

/-- parser.p_expression_and, arm where both operands are ints:
`int(bool(p[1] % 2) and bool(p[3] % 2))`. -/
def p_expression_and_fold (a b : Int) : Int :=
  if (a % 2 != 0) && (b % 2 != 0) then 1 else 0

/-- parser.p_expression_not, arm where the operand is an int:
`int(not bool(p[2] % 2))`. -/
def p_expression_not_fold (a : Int) : Int :=
  if a % 2 != 0 then 0 else 1

/-- C9: the parser folds `or`/`and`/`not` over integer constants at parse
time using the least-significant bit (`c % 2 = 1`) of each constant as its
truth value, producing the integer 1 or 0; in particular `not 2` folds to 1
and `2 or 2` folds to 0. -/
theorem c9_parser_logic_fold :
    (∀ a b : Int, p_expression_or_fold a b = if a % 2 = 1 ∨ b % 2 = 1 then 1 else 0)
  ∧ (∀ a b : Int, p_expression_and_fold a b = if a % 2 = 1 ∧ b % 2 = 1 then 1 else 0)
  ∧ (∀ a : Int, p_expression_not_fold a = if a % 2 = 1 then 0 else 1)
  ∧ p_expression_not_fold 2 = 1 ∧ p_expression_or_fold 2 2 = 0 := by
  refine ⟨?_, ?_, ?_, by decide, by decide⟩
  · intro a b
    unfold p_expression_or_fold
    rcases Int.emod_two_eq a with h | h <;> rcases Int.emod_two_eq b with h2 | h2 <;>
      simp [h, h2]
  · intro a b
    unfold p_expression_and_fold
    rcases Int.emod_two_eq a with h | h <;> rcases Int.emod_two_eq b with h2 | h2 <;>
      simp [h, h2]
  · intro a
    unfold p_expression_not_fold
    rcases Int.emod_two_eq a with h | h <;> simp [h]

-- ------------------------------------------------------------------
-- ast.py: relational pre_build ancilla sizing (C10) and n_bits_const (C4)
-- ------------------------------------------------------------------

/-- Ceiling of log2 on naturals, computed by repeated halving
(`ceil(log2 m) = ceil(log2 (ceil(m / 2))) + 1` for `m ≥ 2`); the fuel
argument bounds the iteration count and `m` halvings always suffice. -/
def ceil_log2_fuel : Nat → Nat → Nat
  | 0, _ => 0
  | fuel + 1, m => if m ≤ 1 then 0 else ceil_log2_fuel fuel ((m + 1) / 2) + 1

/-- Python `int(math.ceil(math.log2 m))` for a natural `m ≥ 1`. -/
def ceil_log2 (m : Nat) : Nat := ceil_log2_fuel m m

/-- Python `math.ceil(math.log2 c)` as evaluated at runtime: `math.log2` raises
`ValueError: math domain error` for `c ≤ 0`. -/
def ceil_log2_py (c : Int) : Except PyErr Nat :=
  if 0 < c then .ok (ceil_log2 c.toNat) else .error .valueErr

/-- ast.n_bits_const: `int(math.ceil(math.log2 c)) if c > 0 else 0`. -/
def n_bits_const (c : Int) : Nat :=
  if 0 < c then ceil_log2 c.toNat else 0

/-- The four relational AST node kinds. -/
inductive RelKind where
  | eq | ne | lt | gt
deriving DecidableEq

/-- Which side of the relational node holds the integer constant:
`rc` (register op constant) or `cr` (constant op register). -/
inductive ConstSide where
  | rc | cr
deriving DecidableEq

/-- The ancilla-count computation of `pre_build` for a relational node in
`rc`/`cr` mode, given the result width `nreg` of the register operand (whose
own `pre_build` succeeded) and the integer constant `c`.
Equal/NotEqual: `n = max(ceil(log2 c) - nreg, 0)`.
LessThan/GreaterThan: `m = nreg - max(nreg, ceil(log2 c)); n = max(m, 0) + 1`.
Both start by evaluating `math.log2 c`, which raises for `c ≤ 0`; the
rc and cr branches are verbatim copies with the operands swapped. -/
def relational_pre_build_aux (k : RelKind) (mode : ConstSide) (nreg : Nat)
    (c : Int) : Except PyErr Nat :=
  match mode with
  | .rc | .cr =>
    match k with
    | .eq | .ne => do
      let l ← ceil_log2_py c
      pure (max ((l : Int) - (nreg : Int)) 0).toNat
    | .lt | .gt => do
      let l ← ceil_log2_py c
      pure ((max ((nreg : Int) - max (nreg : Int) (l : Int)) 0).toNat + 1)

/-- C10: for every relational kind in `rc` or `cr` mode, a constant operand
equal to 0 makes `pre_build` fail with an uncaught `ValueError` (math domain
error from `log2(0)`), not with a line-carrying `SynthError`. -/
theorem c10_relational_zero_const_error :
    ∀ (k : RelKind) (mode : ConstSide) (nreg : Nat),
      relational_pre_build_aux k mode nreg 0 = .error .valueErr := by
  intro k mode nreg
  cases k <;> cases mode <;> rfl

/-- Python `max` over a (nonempty) list of naturals. -/
def pymax (l : List Nat) : Nat := l.foldr max 0

/-- ast.Summation.n_result_qubits:
`max([op.n_result_qubits(env) + 1 for op in filtered_operands] + [n_bits_const(const_term)])`,
as a function of the operand result widths `ns` and the folded signed
constant term. -/
def Summation_n_result_qubits (ns : List Nat) (const_term : Int) : Nat :=
  pymax (ns.map (· + 1) ++ [n_bits_const const_term])

/-- Modelled from the claim wording: `max(max_i(n_i)+1, ceil(log2 |const_term|))`,
with the absolute value applied to the constant term. -/
def Summation_n_result_qubits_claim (ns : List Nat) (const_term : Int) : Nat :=
  max (pymax (ns.map (· + 1))) (ceil_log2 const_term.natAbs)

lemma pymax_append_singleton (l : List Nat) (x : Nat) :
    pymax (l ++ [x]) = max (pymax l) x := by
  induction l with
  | nil => simp [pymax]
  | cons a t ih =>
    simp only [pymax, List.cons_append, List.foldr_cons] at ih ⊢
    rw [ih, Nat.max_assoc]

/-- C4 counterexample: a Summation with one filtered operand of width 1 and
`const_term = -5` (e.g. `y := a - 5` with `a` a 1-qubit register).  The code
computes `max(1+1, n_bits_const(-5)) = max(2, 0) = 2`, while the claimed
formula `max(1+1, ceil(log2 |-5|)) = max(2, 3) = 3`. -/
theorem c4_counterexample :
    Summation_n_result_qubits [1] (-5) = 2
  ∧ Summation_n_result_qubits_claim [1] (-5) = 3 := by
  decide

/-- C4 (amended): `n_result_qubits = max(max_i(n_i)+1, n_bits_const(const_term))`,
where the constant contributes `ceil(log2 const_term)` only when
`const_term > 0` and 0 otherwise — so a negative constant term contributes
nothing, not `ceil(log2 |const_term|)`. -/
theorem c4_summation_sizing_amended :
    ∀ (ns : List Nat) (const_term : Int),
      Summation_n_result_qubits ns const_term
        = max (pymax (ns.map (· + 1))) (n_bits_const const_term) := by
  intro ns c
  unfold Summation_n_result_qubits
  rw [pymax_append_singleton]

-- ------------------------------------------------------------------
-- ast.py: expression tree fragment (Identifier / Parentheses / Power)
-- ------------------------------------------------------------------

/-- Fragment of the ast.py expression tree needed for the pre-build rewrites
and the scope check: `Identifier(line, label)`, `Parentheses(line, inner)`
and `Power(line, base, exponent)` (the exponent is an integer constant). -/
inductive Expr where
  | ident (line : Int) (label : String) : Expr
  | paren (line : Int) (inner : Expr) : Expr
  | pow (line : Int) (base : Expr) (exponent : Int) : Expr
deriving DecidableEq

/-- ast.Expression.get_leafs: the identifiers used in the expression
(Python returns a set; a list with possible duplicates carries the same
membership information). -/
def Expr.get_leafs : Expr → List String
  | .ident _ l => [l]
  | .paren _ e => e.get_leafs
  | .pow _ b _ => b.get_leafs

/-- ast.Parentheses.bypass: strip every outer Parentheses layer. -/
def paren_bypass : Expr → Expr
  | .paren _ e => paren_bypass e
  | e => e

/-- Structural size used to bound the pre-build peel loop. -/
def esize : Expr → Nat
  | .ident _ _ => 1
  | .paren _ e => esize e + 1
  | .pow _ b _ => esize b + 1

lemma esize_paren_bypass_le (e : Expr) : esize (paren_bypass e) ≤ esize e := by
  induction e with
  | ident line label => exact Nat.le_refl _
  | paren line inner ih =>
    rw [paren_bypass]
    exact Nat.le_trans ih (by rw [esize]; omega)
  | pow line b x ih => exact Nat.le_refl _

/-- The operand-rewrite loop of ast.Product.pre_build for one non-integer
operand, threading the accumulated exponent (initially 1):

```
while isinstance(op, (Power, Parentheses)):
    op = Parentheses.bypass(op)
    if isinstance(op, Power):
        op = op.base_expr
        exponents[i] *= op.exponent      # reads the NEW operand
```

After the operand is replaced by its base, `op.exponent` is the exponent of
the base: if the base is itself a Power the loop multiplies by that inner
exponent and continues; otherwise the attribute access raises
AttributeError. -/
def is_pow_or_paren : Expr → Bool
  | .paren _ _ => true
  | .pow _ _ _ => true
  | _ => false

def product_pre_build_peel (e : Expr) (exp : Int) : Except PyErr (Expr × Int) :=
  if is_pow_or_paren e then
    match h : paren_bypass e with
    | .pow _ (.pow l2 b2 e2) _ => product_pre_build_peel (.pow l2 b2 e2) (exp * e2)
    | .pow _ _ _ => .error .attrErr
    | e1 => .ok (e1, exp)
  else .ok (e, exp)
termination_by esize e
decreasing_by
  have hle := esize_paren_bypass_le e
  rw [h] at hle
  simp only [esize] at hle ⊢
  omega

/-- C6 (code bug): the peel loop reads `.exponent` from the operand after it
has been replaced by its own base, so any peeled Power layer either crashes
or uses the wrong exponent.  For the operand `b^2` (base an Identifier) the
attribute access raises AttributeError; for `(x^2)^3` the loop multiplies
the accumulated exponent by the inner 2 instead of the peeled 3 and then
crashes on the next iteration.  The claim (entry equals the product of all
peeled exponents) holds only when no Power layer is peeled. -/
theorem c6_product_peel_bug_eval :
    product_pre_build_peel (.pow 1 (.ident 1 "b") 2) 1 = .error .attrErr
  ∧ product_pre_build_peel (.pow 1 (.pow 1 (.ident 1 "x") 2) 3) 1 = .error .attrErr
  ∧ product_pre_build_peel (.paren 1 (.ident 1 "a")) 1 = .ok (.ident 1 "a", 1) := by
  refine ⟨?_, ?_, ?_⟩ <;>
    simp [product_pre_build_peel.eq_def, paren_bypass, is_pow_or_paren]

-- ------------------------------------------------------------------
-- ast.py: Product.reverse operand calls (C2)
-- ------------------------------------------------------------------

/-- The operand loop of ast.Product.reverse:

```
for op in self.operands:
    if not isinstance(op, Identifier): op.reverse()
    if op.needs_result_allocation(): op.release_result_qubits(quantum_evaluator)
```

An Identifier operand is skipped entirely (`needs_result_allocation` is
False).  Any other Expression operand is called as `op.reverse()` with the
required `quantum_evaluator` argument missing — a TypeError.  An integer
operand (still present in `operands`; pre_build folds it into const_factor
but does not remove it) has no `reverse` attribute — an AttributeError. -/
def product_reverse_operand_calls : List (Expr ⊕ Int) → Except PyErr Unit
  | [] => .ok ()
  | op :: rest =>
    match op with
    | .inl (.ident _ _) => product_reverse_operand_calls rest
    | .inl _ => .error .typeErr
    | .inr _ => .error .attrErr

/-- C2 (code bug): `build; reverse` cannot complete without error on every
node variant, because ast.Product.reverse calls `op.reverse()` without the
evaluator argument for every non-Identifier operand (TypeError) and calls it
on leftover integer operands too (AttributeError); likewise the rr branches
of Equal/NotEqual.reverse call `release_result_qubits()` without the
evaluator.  Evaluated here on the operand lists of `x * (x + 1)` (after
pre_build bypasses the Parentheses the second operand is a non-Identifier
Summation, modelled by a non-Identifier expression) and of `2 * x`. -/
theorem c2_product_reverse_bug_eval :
    product_reverse_operand_calls [.inl (.ident 1 "x"), .inl (.pow 1 (.ident 1 "x") 2)]
      = .error .typeErr
  ∧ product_reverse_operand_calls [.inr 2, .inl (.ident 1 "x")] = .error .attrErr := by
  constructor <;> rfl

-- ------------------------------------------------------------------
-- ast.py: FullCode.check_definition_errors (C7)
-- ------------------------------------------------------------------

/-- ast.RegisterDefinition: a RegisterSetDefinition (name, size, value set)
or a RegisterExpressionDefinition (name, size, expression). -/
inductive RegDef where
  | setDef (line : Int) (name : String) (n : Int) (values : List Int) : RegDef
  | exprDef (line : Int) (name : String) (n : Int) (expr : Expr) : RegDef
deriving DecidableEq

def RegDef.name : RegDef → String
  | .setDef _ nm _ _ => nm
  | .exprDef _ nm _ _ => nm

def RegDef.line : RegDef → Int
  | .setDef l _ _ _ => l
  | .exprDef l _ _ _ => l

/-- The identifiers used by a definition: `expr.get_leafs()` for an
expression definition, none for a set definition. -/
def RegDef.leafs : RegDef → List String
  | .setDef _ _ _ _ => []
  | .exprDef _ _ _ e => e.get_leafs

/-- ast.Amplify terminator. -/
structure Amplify where
  line : Int
  target : String
  iterations : Int
deriving DecidableEq

/-- The definition loop of ast.FullCode.check_definition_errors, threading
the `defined_registers` list: raise SynthError on a redefined name, raise
SynthError on an expression leaf not among the previously defined names,
otherwise append the name and continue. -/
def check_loop : List String → List RegDef → Except PyErr (List String)
  | defined, [] => .ok defined
  | defined, rd :: rest =>
    if rd.name ∈ defined then .error (.synth rd.line "already defined")
    else
      match rd with
      | .exprDef line _ _ e =>
        if e.get_leafs.all (fun lf => decide (lf ∈ defined)) then
          check_loop (defined ++ [rd.name]) rest
        else .error (.synth line "identifier not defined")
      | .setDef _ _ _ _ => check_loop (defined ++ [rd.name]) rest

/-- ast.FullCode.check_definition_errors: run the definition loop, then check
the amplify target.  The final raise uses `regdef.line`, the loop variable
left over from the definition loop: for a nonempty sequence that is the last
definition, but for an empty sequence the variable was never bound and the
raise itself fails with an uncaught NameError. -/
def check_definition_errors (rds : List RegDef) (t : Amplify) : Except PyErr Unit :=
  match check_loop [] rds with
  | .error e => .error e
  | .ok defined =>
    if t.target ∈ defined then .ok ()
    else
      match rds.getLast? with
      | some rd => .error (.synth rd.line "amplify target not defined")
      | none => .error .nameErr

def reg_names (rds : List RegDef) : List String := rds.map RegDef.name

/-- Claim condition: two register definitions share a name. -/
def shares_name (rds : List RegDef) : Prop :=
  ∃ i, ∃ _ : i < rds.length, rds[i].name ∈ reg_names (rds.take i)

/-- Claim condition: some expression definition uses an identifier not
defined by a strictly earlier register definition. -/
def uses_undefined_identifier (rds : List RegDef) : Prop :=
  ∃ i, ∃ _ : i < rds.length, ∃ lf ∈ rds[i].leafs, lf ∉ reg_names (rds.take i)

/-- Success condition of the definition loop, stated recursively. -/
def defs_ok (defined : List String) : List RegDef → Prop
  | [] => True
  | rd :: rest => rd.name ∉ defined ∧ (∀ lf ∈ rd.leafs, lf ∈ defined)
      ∧ defs_ok (defined ++ [rd.name]) rest

lemma check_loop_ok_iff_defs_ok : ∀ (rds : List RegDef) (defined : List String),
    (∃ v, check_loop defined rds = .ok v) ↔ defs_ok defined rds := by
  intro rds
  induction rds with
  | nil =>
    intro defined
    simp [check_loop, defs_ok]
  | cons rd rest ih =>
    intro defined
    by_cases hdup : rd.name ∈ defined
    · simp [check_loop, defs_ok, hdup]
    · cases rd with
      | exprDef line nm n e =>
        simp only [RegDef.name] at hdup
        by_cases hleaf : ∀ lf ∈ e.get_leafs, lf ∈ defined
        · have hall : (e.get_leafs.all fun lf => decide (lf ∈ defined)) = true := by
            simp only [List.all_eq_true, decide_eq_true_eq]
            exact hleaf
          simp only [check_loop, RegDef.name, RegDef.line, RegDef.leafs, defs_ok,
            if_neg hdup, if_pos hall]
          rw [ih (defined ++ [nm])]
          exact ⟨fun h => ⟨hdup, hleaf, h⟩, fun h => h.2.2⟩
        · have hall : ¬ ((e.get_leafs.all fun lf => decide (lf ∈ defined)) = true) := by
            simp only [List.all_eq_true, decide_eq_true_eq]
            exact hleaf
          simp only [check_loop, RegDef.name, RegDef.line, RegDef.leafs, defs_ok,
            if_neg hdup, if_neg hall]
          constructor
          · rintro ⟨v, hv⟩
            exact Except.noConfusion hv
          · rintro ⟨-, hleafs, -⟩
            exact absurd hleafs hleaf
      | setDef line nm n vals =>
        simp only [RegDef.name] at hdup
        simp only [check_loop, RegDef.name, RegDef.line, RegDef.leafs, defs_ok,
          if_neg hdup]
        rw [ih (defined ++ [nm])]
        exact ⟨fun h => ⟨hdup, by simp, h⟩, fun h => h.2.2⟩

lemma check_loop_ok_val : ∀ (rds : List RegDef) (defined v : List String),
    check_loop defined rds = .ok v → v = defined ++ reg_names rds := by
  intro rds
  induction rds with
  | nil =>
    intro defined v h
    simp only [check_loop, Except.ok.injEq] at h
    simp [reg_names, ← h]
  | cons rd rest ih =>
    intro defined v h
    by_cases hdup : rd.name ∈ defined
    · simp [check_loop, hdup] at h
    · cases rd with
      | exprDef line nm n e =>
        simp only [RegDef.name] at hdup
        by_cases hall : (e.get_leafs.all fun lf => decide (lf ∈ defined)) = true
        · simp only [check_loop, RegDef.name, if_neg hdup, if_pos hall] at h
          rw [ih _ _ h]
          simp [reg_names, RegDef.name]
        · simp only [check_loop, RegDef.name, if_neg hdup, if_neg hall] at h
          exact Except.noConfusion h
      | setDef line nm n vals =>
        simp only [RegDef.name] at hdup
        simp only [check_loop, RegDef.name, if_neg hdup] at h
        rw [ih _ _ h]
        simp [reg_names, RegDef.name]

lemma check_loop_error_synth : ∀ (rds : List RegDef) (defined : List String) (e : PyErr),
    check_loop defined rds = .error e → ∃ l d, e = .synth l d := by
  intro rds
  induction rds with
  | nil =>
    intro defined e h
    exact Except.noConfusion h
  | cons rd rest ih =>
    intro defined e h
    by_cases hdup : rd.name ∈ defined
    · simp only [check_loop, if_pos hdup, Except.error.injEq] at h
      exact ⟨rd.line, "already defined", h.symm⟩
    · cases rd with
      | exprDef line nm n e2 =>
        simp only [RegDef.name] at hdup
        by_cases hall : (e2.get_leafs.all fun lf => decide (lf ∈ defined)) = true
        · simp only [check_loop, RegDef.name, if_neg hdup, if_pos hall] at h
          exact ih _ _ h
        · simp only [check_loop, RegDef.name, if_neg hdup, if_neg hall,
            Except.error.injEq] at h
          exact ⟨line, "identifier not defined", h.symm⟩
      | setDef line nm n vals =>
        simp only [RegDef.name] at hdup
        simp only [check_loop, RegDef.name, if_neg hdup] at h
        exact ih _ _ h

lemma defs_ok_iff_indexed : ∀ (rds : List RegDef) (defined : List String),
    defs_ok defined rds
      ↔ ∀ i, ∀ _ : i < rds.length,
          rds[i].name ∉ defined ++ reg_names (rds.take i)
          ∧ ∀ lf ∈ rds[i].leafs, lf ∈ defined ++ reg_names (rds.take i) := by
  intro rds
  induction rds with
  | nil =>
    intro defined
    simp [defs_ok]
  | cons rd rest ih =>
    intro defined
    constructor
    · rintro ⟨hA, hB, hrest⟩ i hi
      match i, hi with
      | 0, _ =>
        simpa [reg_names] using ⟨hA, hB⟩
      | (i + 1), hi =>
        have h := (ih (defined ++ [rd.name])).mp hrest i (by simpa using hi)
        simpa [reg_names, List.append_assoc] using h
    · intro hall
      have h0 := hall 0 (by simp)
      refine ⟨by simpa [reg_names] using h0.1, by simpa [reg_names] using h0.2,
        (ih _).mpr ?_⟩
      intro i hi
      have h := hall (i + 1) (by simpa using hi)
      simpa [reg_names, List.append_assoc] using h

/-- C7 counterexample: a FullCode with an empty definition sequence and
amplify target `a`.  The claim condition holds (the target is not the name
of any defined register) and so the claim requires a SynthError, but the
raise references the unbound loop variable `regdef` and the call fails with
an uncaught NameError instead. -/
theorem c7_counterexample :
    check_definition_errors [] ⟨1, "a", 0⟩ = .error .nameErr
  ∧ "a" ∉ reg_names [] := by
  constructor
  · rfl
  · simp [reg_names]

/-- C7 (amended): for every FullCode whose definition sequence is nonempty
(as the grammar guarantees), check_definition_errors raises a SynthError if
and only if two register definitions share a name, or some expression
definition uses an identifier not defined by a strictly earlier definition
(so a definition may not reference itself), or the amplify target is not the
name of any defined register; otherwise it returns normally.  (For an empty
sequence with an undefined target the raise itself fails with an uncaught
NameError, because the loop variable `regdef` was never bound.) -/
theorem c7_check_definition_errors_amended (rds : List RegDef) (t : Amplify)
    (hne : rds ≠ []) :
    (∃ l d, check_definition_errors rds t = .error (.synth l d))
      ↔ (shares_name rds ∨ uses_undefined_identifier rds
          ∨ t.target ∉ reg_names rds) := by
  cases hloop : check_loop [] rds with
  | error e =>
    obtain ⟨l, d, rfl⟩ := check_loop_error_synth rds [] e hloop
    have hnotok : ¬ ∃ v, check_loop [] rds = .ok v := by
      rw [hloop]
      simp
    rw [check_loop_ok_iff_defs_ok, defs_ok_iff_indexed] at hnotok
    push_neg at hnotok
    obtain ⟨i, hi, hbad⟩ := hnotok
    refine iff_of_true ⟨l, d, ?_⟩ ?_
    · unfold check_definition_errors
      rw [hloop]
    · rcases Classical.em (rds[i].name ∈ [] ++ reg_names (rds.take i)) with hs | hs
      · left
        exact ⟨i, hi, by simpa using hs⟩
      · have hB := hbad hs
        push_neg at hB
        obtain ⟨lf, hmem, hnot⟩ := hB
        right
        left
        exact ⟨i, hi, lf, hmem, by simpa using hnot⟩
  | ok defined =>
    have hval : defined = reg_names rds := by
      have := check_loop_ok_val rds [] defined hloop
      simpa using this
    have hok : ∃ v, check_loop [] rds = .ok v := ⟨defined, hloop⟩
    rw [check_loop_ok_iff_defs_ok, defs_ok_iff_indexed] at hok
    by_cases htarget : t.target ∈ defined
    · refine iff_of_false ?_ ?_
      · rintro ⟨l, d, habs⟩
        unfold check_definition_errors at habs
        rw [hloop] at habs
        simp [htarget] at habs
      · rintro (⟨i, hi, hs⟩ | ⟨i, hi, lf, hmem, hnot⟩ | ht)
        · exact absurd (by simpa using (hok i hi).1) (not_not_intro hs)
        · exact absurd (by simpa using (hok i hi).2 lf hmem) hnot
        · exact ht (hval ▸ htarget)
    · obtain ⟨rd, hrd⟩ := Option.isSome_iff_exists.mp (List.getLast?_isSome.mpr hne)
      refine iff_of_true ⟨rd.line, "amplify target not defined", ?_⟩ ?_
      · unfold check_definition_errors
        rw [hloop]
        simp [htarget, hrd]
      · right
        right
        rw [← hval]
        exact htarget

/-- Witness for the amended C7 at a concrete one-definition program whose
amplify target `b` is undefined: both sides of the equivalence hold. -/
theorem c7_amended_witness :
    ([RegDef.setDef 1 "a" 2 [0]] ≠ [])
  ∧ ((∃ l d, check_definition_errors [RegDef.setDef 1 "a" 2 [0]] ⟨2, "b", 0⟩
        = .error (.synth l d))
      ↔ (shares_name [RegDef.setDef 1 "a" 2 [0]]
          ∨ uses_undefined_identifier [RegDef.setDef 1 "a" 2 [0]]
          ∨ "b" ∉ reg_names [RegDef.setDef 1 "a" 2 [0]])) :=
  ⟨by simp, c7_check_definition_errors_amended [RegDef.setDef 1 "a" 2 [0]] ⟨2, "b", 0⟩
    (by simp)⟩
